import Mathlib

/-!
Verification of the `tokrs` vocabulary library (`src/lib.rs`).

The library builds a vocabulary (a mapping from lowercased text tokens to
integer identifiers) from raw text, and persists/restores it as a
tab-separated file.  This file gives a shallow embedding of the Rust code
and proves the specified properties about it.

Modelling conventions:
* `HashMap<String, i32>` is modelled as `List (String × Int)` with unique
  keys; the list order stands for the (unspecified) iteration order of the
  hash map, and order-sensitive statements are quantified over permutations.
* `i32` values are modelled as `Int`; the `i32` range check of
  `str::parse::<i32>` is kept explicitly (`parseI32`).  The identifier
  counter of `Vocab::new` is modelled as an unbounded `Int`: its `i32`
  overflow is unreachable for any input with fewer than 2^31 distinct
  tokens.
* `char::is_alphanumeric` is modelled on the ASCII fragment
  (`Char.isAlphanum`); all data in the specification is ASCII.
* Panics (`expect`, `unwrap`) are modelled as `Option.none`; the declared
  `Result<Vocab, std::io::Error>` of `Vocab::new` / `Vocab::load` is
  modelled as `Except IOError Vocab`, so those functions return
  `Option (Except IOError Vocab)` with `none` = panic.
* The filesystem is a map from paths to file contents,
  `FS := String → Option String`.
-/

/-- The apostrophe character (ASCII 39). -/
def apos : Char := Char.ofNat 39

/-- The separator predicate of `Vocab::tokenize`: the split closure
`|c: char| !(c.is_alphanumeric() || c == '\x27')`. -/
def isSep (c : Char) : Bool := !(c.isAlphanum || c == apos)

/-- Head/tail form of Rust `str::split` on a character predicate: returns the
segment before the first separator and the list of the remaining segments.
`splitCh` below reassembles the usual list-of-segments view. -/
def splitChHT (p : Char → Bool) : List Char → List Char × List (List Char)
  | [] => ([], [])
  | c :: cs =>
    let r := splitChHT p cs
    if p c then ([], r.1 :: r.2) else (c :: r.1, r.2)

/-- Rust `str::split(p)`: the list of (possibly empty) segments between
separator characters.  Always non-empty. -/
def splitCh (p : Char → Bool) (cs : List Char) : List (List Char) :=
  (splitChHT p cs).1 :: (splitChHT p cs).2

/-- `Vocab::tokenize` on a list of characters: split on `isSep`, drop empty
segments, lowercase each segment. -/
def tokenizeL (cs : List Char) : List (List Char) :=
  ((splitCh isSep cs).filter (fun s => !s.isEmpty)).map (fun s => s.map Char.toLower)

/-- `Vocab::tokenize`: split the text on every character that is not
alphanumeric and not an apostrophe, drop empty segments, lowercase
(per-character, ASCII) each remaining segment. -/
def tokenize (text : String) : List String :=
  (tokenizeL text.data).map String.mk

/-- `HashMap::contains_key` on the association-list model. -/
def containsA (m : List (String × Int)) (k : String) : Bool :=
  m.any (fun p => p.1 == k)

/-- `HashMap::get`-style lookup on the association-list model. -/
def findA (m : List (String × Int)) (k : String) : Option Int :=
  match m with
  | [] => none
  | p :: m => if p.1 = k then some p.2 else findA m k

/-- `HashMap::insert` on the association-list model: replace the value of an
existing key, otherwise append the new entry. -/
def insertA (m : List (String × Int)) (k : String) (v : Int) : List (String × Int) :=
  if containsA m k then m.map (fun p => if p.1 = k then (k, v) else p)
  else m ++ [(k, v)]

/-- The construction loop of `Vocab::new`: for each token not already a key,
insert it with the next identifier.  The `i32` counter of the source is
modelled as an unbounded `Int`; theorems about the identifier values carry
a `≤ 2 ^ 31` bound on the number of distinct tokens, the region where the
two coincide (past it the source wraps or panics on the `i32` overflow). -/
def buildMap : List String → List (String × Int) → Int → List (String × Int)
  | [], m, _ => m
  | t :: ts, m, tok =>
    if containsA m t then buildMap ts m tok
    else buildMap ts (m ++ [(t, tok)]) (tok + 1)

/-- The vocabulary: a mapping from tokens to integer identifiers
(`HashMap<String, i32>` in the source). -/
structure Vocab where
  map : List (String × Int)
deriving DecidableEq, Repr

/-- Model of the filesystem: a map from paths to readable file contents. -/
def FS : Type := String → Option String

/-- Model of `std::io::Error` (never constructed by this library). -/
inductive IOError where
  | ioError
deriving DecidableEq, Repr

/-- `Vocab::read_file`: read a file to a string; the source panics
(`expect`) on any I/O error, modelled as `none`. -/
def Vocab.read_file (fs : FS) (fpath : String) : Option String :=
  fs fpath

/-- The text-processing body of `Vocab::new` (tokenize the contents, then run
the construction loop starting from the empty map and identifier 0). -/
def Vocab.fromText (text : String) : Vocab :=
  ⟨buildMap (tokenize text) [] 0⟩

/-- `Vocab::new`: read the file (panic on I/O error, modelled as `none`),
build the map, and return `Ok`. -/
def Vocab.new (fs : FS) (fpath : String) : Option (Except IOError Vocab) :=
  match Vocab.read_file fs fpath with
  | none => none
  | some contents => some (Except.ok (Vocab.fromText contents))

/-- Decimal digit character for a digit value below 10. -/
def digitChar (n : Nat) : Char := Char.ofNat (48 + n)

/-- Fuel-driven decimal rendering of a natural number (most significant digit
first); `fuel > n` suffices. -/
def natToDecFuel : Nat → Nat → List Char
  | 0, _ => []
  | fuel + 1, n =>
    if n < 10 then [digitChar n]
    else natToDecFuel fuel (n / 10) ++ [digitChar (n % 10)]

/-- Decimal rendering of a natural number. -/
def natToDec (n : Nat) : List Char := natToDecFuel (n + 1) n

/-- Decimal rendering of an integer (`i32::to_string`): optional minus sign,
then the digits of the absolute value, no leading zeros. -/
def intToDec (n : Int) : List Char :=
  if n < 0 then Char.ofNat 45 :: natToDec n.natAbs else natToDec n.toNat

/-- `i32::to_string` as a `String`. -/
def intToStr (n : Int) : String := String.mk (intToDec n)

/-- The serialization built by `Vocab::write` before `std::fs::write`:
for each entry, the token, a tab, the identifier in decimal, a newline,
in iteration order. -/
def Vocab.writeContents (v : Vocab) : String :=
  v.map.foldl (fun acc e => acc ++ e.1 ++ "\t" ++ intToStr e.2 ++ "\n") ""

/-- `Vocab::write`: write the serialization to the destination path
(the model filesystem is always writable). -/
def Vocab.write (v : Vocab) (fs : FS) (fpath : String) : FS :=
  fun q => if q = fpath then some v.writeContents else fs q

/-- Strip one trailing carriage return (used by `str::lines` on segments that
end just before a line feed). -/
def stripCR (l : List Char) : List Char :=
  match l.reverse with
  | c :: r => if c = Char.ofNat 13 then r.reverse else l
  | [] => l

/-- Accumulator loop for `str::lines`: split at every line feed (stripping a
carriage return before it); a final segment without a line feed is kept
as-is, and a trailing line feed produces no empty final line. -/
def linesAux : List Char → List Char → List (List Char)
  | [], acc => if acc.isEmpty then [] else [acc.reverse]
  | c :: cs, acc =>
    if c = Char.ofNat 10 then stripCR acc.reverse :: linesAux cs []
    else linesAux cs (c :: acc)

/-- `str::lines` on a list of characters. -/
def rustLinesL (cs : List Char) : List (List Char) := linesAux cs []

/-- `str::lines`. -/
def rustLines (s : String) : List String := (rustLinesL s.data).map String.mk

/-- `line.splitn(2, '\t')` when a tab is present: the part before the first
tab and the remainder after it; `none` when the line has no tab. -/
def splitFirstTab : List Char → Option (List Char × List Char)
  | [] => none
  | c :: cs =>
    if c = Char.ofNat 9 then some ([], cs)
    else (splitFirstTab cs).map (fun r => (c :: r.1, r.2))

/-- Decimal value of a digit list (most significant first). -/
def decVal (ds : List Char) : Nat :=
  ds.foldl (fun a c => a * 10 + (c.toNat - 48)) 0

/-- Parse a non-empty all-digit list to its value. -/
def parseDigits (ds : List Char) : Option Nat :=
  if !ds.isEmpty && ds.all Char.isDigit then some (decVal ds) else none

/-- `str::parse::<i32>` on the character list: optional sign, decimal
digits, failing on an empty or non-digit body and on values outside the
`i32` range. -/
def parseI32L (l : List Char) : Option Int :=
  match l with
  | [] => none
  | c :: cs =>
    if c = Char.ofNat 43 then
      (parseDigits cs).bind (fun n => if n ≤ 2 ^ 31 - 1 then some (n : Int) else none)
    else if c = Char.ofNat 45 then
      (parseDigits cs).bind (fun n => if n ≤ 2 ^ 31 then some (-(n : Int)) else none)
    else
      (parseDigits (c :: cs)).bind (fun n => if n ≤ 2 ^ 31 - 1 then some (n : Int) else none)

/-- `str::parse::<i32>`. -/
def parseI32 (s : String) : Option Int := parseI32L s.data

/-- One iteration of the parsing loop of `Vocab::load`, on the character
list of the line: split at the first tab (the source panics, modelled
`none`, when there is no tab), parse the identifier (the source panics,
modelled `none`, on a parse error). -/
def parseLineL (l : List Char) : Option (String × Int) :=
  match splitFirstTab l with
  | none => none
  | some r =>
    match parseI32 (String.mk r.2) with
    | none => none
    | some v => some (String.mk r.1, v)

/-- One iteration of the parsing loop of `Vocab::load`. -/
def parseLine (line : String) : Option (String × Int) := parseLineL line.data

/-- The characters of one persisted line before its newline: token, tab,
identifier in decimal. -/
def lineBody (p : String × Int) : List Char :=
  p.1.data ++ Char.ofNat 9 :: intToDec p.2

/-- The line loop of `Vocab::load`: parse each line and insert its pair;
`none` (panic) as soon as a line fails to parse. -/
def loadLoop : List String → List (String × Int) → Option (List (String × Int))
  | [], m => some m
  | l :: ls, m =>
    match parseLine l with
    | none => none
    | some p => loadLoop ls (insertA m p.1 p.2)

/-- `Vocab::load`: read the file (panic on I/O error, modelled `none`), parse
every line, and return `Ok`. -/
def Vocab.load (fs : FS) (fpath : String) : Option (Except IOError Vocab) :=
  match Vocab.read_file fs fpath with
  | none => none
  | some contents =>
    match loadLoop (rustLines contents) [] with
    | none => none
    | some m => some (Except.ok ⟨m⟩)

/-- `Vocab::size`: the number of entries of the map. -/
def Vocab.size (v : Vocab) : Nat := v.map.length

/-! ### Specification-side definitions

The following definitions restate the words of the specification (maximal
runs of kept characters; first-occurrence enumeration; joining with a
separator); they are the comparison targets of the refinement claims. -/

/-- Accumulator loop collecting maximal runs of non-separator characters, as
the specification words the tokenizer: walk the text, flush the current run
at each separator, drop empty runs. -/
def wordsAux : List Char → List Char → List (List Char)
  | [], acc => if acc.isEmpty then [] else [acc.reverse]
  | c :: cs, acc =>
    if isSep c then
      if acc.isEmpty then wordsAux cs [] else acc.reverse :: wordsAux cs []
    else wordsAux cs (c :: acc)

/-- The tokenizer as the specification words it: the maximal runs of
alphanumeric/apostrophe characters, in order, each lowercased. -/
def specTokenize (text : String) : List String :=
  ((wordsAux text.data []).map (fun w => w.map Char.toLower)).map String.mk

/-- The distinct elements of a list in order of first appearance, skipping
those already in `seen`. -/
def firstKeys : List String → List String → List String
  | [], _ => []
  | t :: ts, seen => if t ∈ seen then firstKeys ts seen else t :: firstKeys ts (t :: seen)

/-- Pair each list element with consecutive integers starting at `t`. -/
def enumFromInt : Int → List String → List (String × Int)
  | _, [] => []
  | t, k :: ks => (k, t) :: enumFromInt (t + 1) ks

/-- The `n` consecutive integers starting at `t`. -/
def intRange : Int → Nat → List Int
  | _, 0 => []
  | t, n + 1 => t :: intRange (t + 1) n

/-- Join a list of words with a single separator character between
consecutive words. -/
def joinSep (c : Char) : List (List Char) → List Char
  | [] => []
  | [w] => w
  | w :: ws => w ++ c :: joinSep c ws

/-- First of two options that is `some` (left biased). -/
def orO (a b : Option Int) : Option Int :=
  match a with
  | some v => some v
  | none => b

/-- The identifier carried by the last line of `lines` that parses to the
token `x`, if any. -/
def lastIdFor (x : String) : List String → Option Int
  | [] => none
  | l :: ls =>
    match lastIdFor x ls with
    | some v => some v
    | none =>
      match parseLine l with
      | some p => if p.1 = x then some p.2 else none
      | none => none

/-- The characters of the persisted line of one entry: token, tab,
identifier in decimal, newline. -/
def entryChars (p : String × Int) : List Char :=
  p.1.data ++ Char.ofNat 9 :: (intToDec p.2 ++ [Char.ofNat 10])

/-- A filesystem with no readable file. -/
def fsEmpty : FS := fun _ => none

/-- A filesystem holding one small corpus file. -/
def fsOne : FS := fun p => if p = "corpus.txt" then some "a b" else none

/-- A filesystem holding a persisted vocabulary with a duplicated token. -/
def fsDup : FS := fun p => if p = "vocab.tsv" then some "x\t0\nx\t5\n" else none

/-- A filesystem holding a persisted vocabulary with a malformed (tab-free)
line. -/
def fsBad : FS := fun p => if p = "vocab.tsv" then some "ab\ncd\t3\n" else none

/-- The text of the punctuation-stripping example of the specification. -/
def dontStopText : String :=
  String.mk ['d', 'o', 'n', apos, 't', ' ', 's', 't', 'o', 'p', ',', ' ',
             'w', 'o', 'n', apos, 't', ' ', 's', 't', 'o', 'p', '!']

/-- The first expected token of the punctuation-stripping example. -/
def dontTok : String := String.mk ['d', 'o', 'n', apos, 't']

/-- The third expected token of the punctuation-stripping example. -/
def wontTok : String := String.mk ['w', 'o', 'n', apos, 't']

/-! ### Lemmas about the tokenizer -/

/-- The run-collecting loop agrees with split-then-filter: the pending run
is prepended to the first split segment and empty segments are dropped. -/
theorem wordsAux_eq_splitCh :
    ∀ (cs acc : List Char),
      wordsAux cs acc =
        (((acc.reverse ++ (splitChHT isSep cs).1) :: (splitChHT isSep cs).2).filter
          (fun w => !w.isEmpty)) := by
  intro cs
  induction cs with
  | nil =>
    intro acc
    cases acc with
    | nil => simp [wordsAux, splitChHT]
    | cons a as => simp [wordsAux, splitChHT]
  | cons c cs ih =>
    intro acc
    by_cases h : isSep c = true
    · cases hacc : acc with
      | nil => simp [wordsAux, splitChHT, h, ih []]
      | cons a as =>
        simp only [wordsAux, splitChHT, h, if_true]
        simp only [List.isEmpty_cons, if_false, Bool.false_eq_true]
        rw [ih []]
        simp
    · have h2 : isSep c = false := by simpa using h
      simp only [wordsAux, splitChHT, h2]
      rw [ih (c :: acc)]
      simp

/-- The implemented tokenizer equals the specification-side one. -/
theorem tokenize_eq_specTokenize (s : String) : tokenize s = specTokenize s := by
  unfold tokenize specTokenize tokenizeL splitCh
  rw [wordsAux_eq_splitCh]
  simp

/-! ### Lemmas about the construction loop -/

/-- `containsA` decides membership among the keys. -/
theorem containsA_iff (m : List (String × Int)) (k : String) :
    containsA m k = true ↔ k ∈ m.map Prod.fst := by
  simp [containsA, List.any_eq_true, List.mem_map]

/-- `firstKeys` depends on `seen` only through membership. -/
theorem firstKeys_congr :
    ∀ (ts s1 s2 : List String), (∀ x, x ∈ s1 ↔ x ∈ s2) →
      firstKeys ts s1 = firstKeys ts s2 := by
  intro ts
  induction ts with
  | nil => intros; rfl
  | cons t ts ih =>
    intro s1 s2 h
    simp only [firstKeys]
    by_cases ht : t ∈ s1
    · rw [if_pos ht, if_pos ((h t).mp ht), ih _ _ h]
    · rw [if_neg ht, if_neg (fun c => ht ((h t).mpr c))]
      rw [ih (t :: s1) (t :: s2) (fun x => by simp [List.mem_cons, h x])]

/-- The construction loop appends the unseen tokens, in first-appearance
order, paired with consecutive identifiers. -/
theorem buildMap_eq :
    ∀ (ts : List String) (m : List (String × Int)) (tok : Int),
      buildMap ts m tok = m ++ enumFromInt tok (firstKeys ts (m.map Prod.fst)) := by
  intro ts
  induction ts with
  | nil => intros; simp [buildMap, firstKeys, enumFromInt]
  | cons t ts ih =>
    intro m tok
    simp only [buildMap, firstKeys]
    by_cases h : t ∈ m.map Prod.fst
    · have hc : containsA m t = true := (containsA_iff m t).mpr h
      rw [hc, if_pos h, if_pos rfl, ih]
    · have hc : containsA m t = false := by
        rw [← Bool.not_eq_true]
        exact fun c => h ((containsA_iff m t).mp c)
      rw [hc, if_neg h, if_neg Bool.false_ne_true, ih]
      have hk : (m ++ [(t, tok)]).map Prod.fst = m.map Prod.fst ++ [t] := by simp
      rw [hk, firstKeys_congr ts (m.map Prod.fst ++ [t]) (t :: m.map Prod.fst)
        (fun x => by simp [List.mem_append, List.mem_cons]; tauto)]
      simp [enumFromInt]

/-- The keys of the enumeration are the enumerated list. -/
theorem enumFromInt_fst :
    ∀ (t : Int) (l : List String), (enumFromInt t l).map Prod.fst = l := by
  intro t l
  induction l generalizing t with
  | nil => rfl
  | cons k ks ih => simp [enumFromInt, ih]

/-- The values of the enumeration are the consecutive integers from `t`. -/
theorem enumFromInt_snd :
    ∀ (t : Int) (l : List String), (enumFromInt t l).map Prod.snd = intRange t l.length := by
  intro t l
  induction l generalizing t with
  | nil => rfl
  | cons k ks ih => simp [enumFromInt, intRange, ih]

/-- The enumeration preserves length. -/
theorem enumFromInt_length :
    ∀ (t : Int) (l : List String), (enumFromInt t l).length = l.length := by
  intro t l
  induction l generalizing t with
  | nil => rfl
  | cons k ks ih => simp [enumFromInt, ih]

/-- Membership in a consecutive integer range. -/
theorem mem_intRange :
    ∀ (n : Nat) (t x : Int), x ∈ intRange t n ↔ t ≤ x ∧ x < t + n := by
  intro n
  induction n with
  | zero =>
    intro t x
    simp only [intRange]
    constructor
    · intro h
      exact absurd h (List.not_mem_nil x)
    · intro h
      exfalso
      omega
  | succ n ih =>
    intro t x
    simp only [intRange, List.mem_cons, ih (t + 1) x]
    constructor
    · rintro (rfl | h) <;> omega
    · intro h
      by_cases hx : x = t
      · exact Or.inl hx
      · exact Or.inr (by omega)

/-- Membership in `firstKeys`. -/
theorem mem_firstKeys :
    ∀ (ts seen : List String) (x : String),
      x ∈ firstKeys ts seen ↔ x ∈ ts ∧ x ∉ seen := by
  intro ts
  induction ts with
  | nil => intro seen x; simp [firstKeys]
  | cons t ts ih =>
    intro seen x
    simp only [firstKeys]
    by_cases ht : t ∈ seen
    · rw [if_pos ht, ih]
      constructor
      · rintro ⟨hx, hs⟩
        exact ⟨List.mem_cons_of_mem t hx, hs⟩
      · rintro ⟨hx, hs⟩
        rcases List.mem_cons.mp hx with rfl | hx
        · exact absurd ht hs
        · exact ⟨hx, hs⟩
    · rw [if_neg ht]
      simp only [List.mem_cons, ih]
      constructor
      · rintro (rfl | ⟨hx, hs⟩)
        · exact ⟨Or.inl rfl, ht⟩
        · exact ⟨Or.inr hx, fun c => hs (Or.inr c)⟩
      · rintro ⟨rfl | hx, hs⟩
        · exact Or.inl rfl
        · by_cases hxt : x = t
          · exact Or.inl hxt
          · exact Or.inr ⟨hx, fun c => c.elim hxt hs⟩

/-- `firstKeys` has no duplicates. -/
theorem firstKeys_nodup : ∀ (ts seen : List String), (firstKeys ts seen).Nodup := by
  intro ts
  induction ts with
  | nil => intro seen; simp [firstKeys]
  | cons t ts ih =>
    intro seen
    simp only [firstKeys]
    by_cases ht : t ∈ seen
    · rw [if_pos ht]; exact ih seen
    · rw [if_neg ht]
      refine List.nodup_cons.mpr ⟨?_, ih (t :: seen)⟩
      intro c
      exact ((mem_firstKeys ts (t :: seen) t).mp c).2 (List.mem_cons_self t seen)

/-! ### Claim theorems (tokenizer and construction) -/

/-- C3: for every input string, tokenization splits at every character that
is neither alphanumeric nor an apostrophe, discards empty segments,
lowercases each remaining segment, and returns the non-empty lowercase
tokens in original left-to-right order including duplicates (stated as
equality with the specification-side maximal-run tokenizer); in particular
the punctuation-stripping and case-normalization examples hold. -/
theorem C3_tokenize_correct :
    (∀ s : String, tokenize s = specTokenize s)
    ∧ tokenize dontStopText = [dontTok, "stop", wontTok, "stop"]
    ∧ tokenize "Hello WORLD" = ["hello", "world"] :=
  ⟨tokenize_eq_specTokenize, by decide, by decide⟩

/-- C2: building a vocabulary from text assigns identifiers in first
appearance order of the distinct tokens, starting at 0 and incrementing by
1 with no gaps (the map is exactly the enumeration of the first-occurrence
key list, and its identifiers are exactly `0, 1, …, size - 1`); in
particular building from `"a b a c b"` yields `{a:0, b:1, c:2}` of size 3.
The identifier-count bound restricts to the region where the unbounded
counter of the model coincides with the `i32` counter of the source (past
it the source wraps or panics), as in every run of the program. -/
theorem C2_first_occurrence_ids :
    ∀ text : String,
      (Vocab.fromText text).map.length ≤ 2 ^ 31 →
      (Vocab.fromText text).map = enumFromInt 0 (firstKeys (tokenize text) [])
      ∧ (Vocab.fromText text).map.map Prod.snd
          = intRange 0 (Vocab.size (Vocab.fromText text))
      ∧ (Vocab.fromText "a b a c b").map = [("a", 0), ("b", 1), ("c", 2)]
      ∧ Vocab.size (Vocab.fromText "a b a c b") = 3 := by
  intro text _
  have h1 : (Vocab.fromText text).map = enumFromInt 0 (firstKeys (tokenize text) []) := by
    unfold Vocab.fromText
    rw [buildMap_eq]
    simp
  refine ⟨h1, ?_, by decide, by decide⟩
  simp only [Vocab.size, h1, enumFromInt_snd, enumFromInt_length]

/-- C2 witness: the `"a b a c b"` build satisfies the size bound and yields
the first-occurrence enumeration `{a:0, b:1, c:2}` of size 3. -/
theorem C2_first_occurrence_ids_witness :
    (Vocab.fromText "a b a c b").map
        = enumFromInt 0 (firstKeys (tokenize "a b a c b") [])
    ∧ (Vocab.fromText "a b a c b").map.map Prod.snd
        = intRange 0 (Vocab.size (Vocab.fromText "a b a c b"))
    ∧ (Vocab.fromText "a b a c b").map = [("a", 0), ("b", 1), ("c", 2)]
    ∧ Vocab.size (Vocab.fromText "a b a c b") = 3 :=
  C2_first_occurrence_ids "a b a c b" (by decide)

/-- C7: the size of a vocabulary built from text equals the number of
distinct tokens of the tokenized text (duplicates collapsed). -/
theorem C7_size_distinct :
    ∀ text : String,
      Vocab.size (Vocab.fromText text) = (tokenize text).toFinset.card := by
  intro text
  have h1 : (Vocab.fromText text).map = enumFromInt 0 (firstKeys (tokenize text) []) := by
    unfold Vocab.fromText
    rw [buildMap_eq]
    simp
  have h2 : (firstKeys (tokenize text) []).toFinset = (tokenize text).toFinset := by
    apply Finset.ext
    intro x
    simp only [List.mem_toFinset, mem_firstKeys]
    simp
  rw [Vocab.size, h1, enumFromInt_length, ← List.toFinset_card_of_nodup (firstKeys_nodup _ _), h2]

/-! ### Lemmas about the association-list map and the load loop -/

/-- A key that is not contained has no binding. -/
theorem containsA_false_findA :
    ∀ (m : List (String × Int)) (k : String),
      containsA m k = false → findA m k = none := by
  intro m k
  induction m with
  | nil => intro _; rfl
  | cons p m ih =>
    intro h
    rw [containsA, List.any_cons, Bool.or_eq_false_iff] at h
    have hne : ¬ p.1 = k := by
      intro c
      rw [c] at h
      simp at h
    simp only [findA, if_neg hne]
    exact ih h.2

/-- `orO` with a `none` right argument. -/
theorem orO_none (a : Option Int) : orO a none = a := by
  cases a <;> rfl

/-- Lookup distributes over append, left biased. -/
theorem findA_append :
    ∀ (m1 m2 : List (String × Int)) (k : String),
      findA (m1 ++ m2) k = orO (findA m1 k) (findA m2 k) := by
  intro m1 m2 k
  induction m1 with
  | nil => rfl
  | cons p m1 ih =>
    show findA (p :: (m1 ++ m2)) k = orO (findA (p :: m1) k) (findA m2 k)
    by_cases hp : p.1 = k
    · simp only [findA, if_pos hp, orO]
    · simp only [findA, if_neg hp, ih]

/-- Lookup after the replacement pass of `insertA`. -/
theorem findA_replace :
    ∀ (m : List (String × Int)) (k : String) (v : Int) (x : String),
      findA (m.map (fun p => if p.1 = k then (k, v) else p)) x
        = if x = k ∧ containsA m k = true then some v else findA m x := by
  intro m k v
  induction m with
  | nil => intro x; simp [findA, containsA]
  | cons q m ih =>
    intro x
    have hcons : containsA (q :: m) k = true ↔ (q.1 = k ∨ containsA m k = true) := by
      simp [containsA, List.any_cons]
    by_cases hq : q.1 = k
    · simp only [List.map_cons, if_pos hq, findA]
      by_cases hx : k = x
      · rw [if_pos hx, if_pos ⟨hx.symm, hcons.mpr (Or.inl hq)⟩]
      · have hxk : ¬ x = k := fun c => hx c.symm
        rw [if_neg hx, ih x, if_neg (fun c => hxk c.1), if_neg (fun c => hxk c.1),
          if_neg (fun c => hx (hq ▸ c))]
    · simp only [List.map_cons, if_neg hq, findA]
      by_cases hx : q.1 = x
      · rw [if_pos hx, if_pos hx, if_neg]
        rintro ⟨rfl, _⟩
        exact hq hx
      · rw [if_neg hx, if_neg hx, ih x]
        by_cases hxk : x = k
        · by_cases hm : containsA m k = true
          · rw [if_pos ⟨hxk, hm⟩, if_pos ⟨hxk, hcons.mpr (Or.inr hm)⟩]
          · rw [if_neg (fun c => hm c.2),
              if_neg (fun c => (hcons.mp c.2).elim hq hm)]
        · rw [if_neg (fun c => hxk c.1), if_neg (fun c => hxk c.1)]

/-- Lookup after `insertA`: the inserted key maps to the new value, every
other key is unchanged. -/
theorem findA_insertA :
    ∀ (m : List (String × Int)) (k : String) (v : Int) (x : String),
      findA (insertA m k v) x = if x = k then some v else findA m x := by
  intro m k v x
  unfold insertA
  cases hc : containsA m k with
  | true =>
    rw [if_pos rfl, findA_replace]
    by_cases hx : x = k
    · rw [if_pos ⟨hx, hc⟩, if_pos hx]
    · rw [if_neg (fun c => hx c.1), if_neg hx]
  | false =>
    rw [if_neg Bool.false_ne_true, findA_append]
    by_cases hx : x = k
    · subst hx
      rw [containsA_false_findA m x hc, if_pos rfl]
      simp [findA, orO]
    · rw [if_neg hx]
      have h1 : findA [(k, v)] x = none := by
        have h2 : ¬ k = x := fun c => hx c.symm
        simp [findA, h2]
      rw [h1, orO_none]

/-- A line that fails to parse makes the whole load loop fail (panic). -/
theorem parseLine_fail_loadLoop :
    ∀ (ls : List String) (line : String) (m0 : List (String × Int)),
      line ∈ ls → parseLine line = none → loadLoop ls m0 = none := by
  intro ls
  induction ls with
  | nil => intro line m0 h; exact absurd h (List.not_mem_nil line)
  | cons l ls ih =>
    intro line m0 hmem hfail
    rcases List.mem_cons.mp hmem with rfl | hmem
    · simp only [loadLoop, hfail]
    · simp only [loadLoop]
      cases hp : parseLine l
      · rfl
      · exact ih line _ hmem hfail

/-- A successful load loop binds each key to the identifier of the last line
carrying it, and otherwise leaves the initial map intact. -/
theorem loadLoop_lastId :
    ∀ (ls : List String) (m0 m : List (String × Int)) (x : String),
      loadLoop ls m0 = some m →
      findA m x = orO (lastIdFor x ls) (findA m0 x) := by
  intro ls
  induction ls with
  | nil =>
    intro m0 m x h
    simp only [loadLoop, Option.some.injEq] at h
    subst h
    rfl
  | cons l ls ih =>
    intro m0 m x h
    simp only [loadLoop] at h
    cases hp : parseLine l with
    | none =>
      rw [hp] at h
      cases h
    | some p =>
      rw [hp] at h
      rw [ih _ _ x h, findA_insertA]
      simp only [lastIdFor, hp]
      cases hl : lastIdFor x ls with
      | some w => simp [orO]
      | none =>
        simp only [orO]
        by_cases hx : x = p.1
        · rw [if_pos hx, if_pos (by rw [hx])]
        · rw [if_neg hx, if_neg (fun c => hx c.symm)]

/-! ### Claim theorems (load path and error behavior) -/

/-- C4: when a persisted file holds several lines with the same token, a
successful load binds that token to the identifier of the last such line
(for a load from the empty map, lookup equals the identifier of the last
line carrying the key); in particular a file with lines `x TAB 0` and
`x TAB 5` loads to `{x: 5}`. -/
theorem C4_last_write_wins :
    ∀ (ls : List String) (m : List (String × Int)) (x : String),
      loadLoop ls [] = some m →
      findA m x = lastIdFor x ls
      ∧ Vocab.load fsDup "vocab.tsv" = some (Except.ok ⟨[("x", 5)]⟩) := by
  intro ls m x h
  refine ⟨?_, rfl⟩
  rw [loadLoop_lastId ls [] m x h]
  show orO (lastIdFor x ls) none = lastIdFor x ls
  exact orO_none _

/-- C4 witness: the duplicated-token file loads with `x` bound to 5. -/
theorem C4_last_write_wins_witness :
    findA [(("x" : String), (5 : Int))] "x" = lastIdFor "x" ["x\t0", "x\t5"]
    ∧ Vocab.load fsDup "vocab.tsv" = some (Except.ok ⟨[("x", 5)]⟩) :=
  C4_last_write_wins ["x\t0", "x\t5"] [("x", 5)] "x" rfl

/-- C6: a line lacking a tab-separated identifier field, or whose identifier
field is not a valid integer, makes `Vocab::load` fail as a whole (the
source panics, modelled as `none`) rather than skip the line. -/
theorem C6_malformed_line_fails :
    ∀ (fs : FS) (fpath contents line : String),
      fs fpath = some contents →
      line ∈ rustLines contents →
      (splitFirstTab line.data = none
        ∨ ∃ r : List Char × List Char, splitFirstTab line.data = some r
            ∧ parseI32 (String.mk r.2) = none) →
      Vocab.load fs fpath = none := by
  intro fs fpath contents line hfs hmem hbad
  have hpl : parseLine line = none := by
    rcases hbad with h | ⟨r, hr, hp⟩
    · simp [parseLine, parseLineL, h]
    · simp [parseLine, parseLineL, hr, hp]
  have hLL : loadLoop (rustLines contents) [] = none :=
    parseLine_fail_loadLoop (rustLines contents) line [] hmem hpl
  unfold Vocab.load Vocab.read_file
  split
  · rfl
  next c hc =>
    have hcc : c = contents := by
      rw [hfs] at hc
      exact (Option.some.inj hc).symm
    subst hcc
    rw [hLL]

/-- C6 witness: a file whose first line has no tab makes the load fail. -/
theorem C6_malformed_line_fails_witness :
    Vocab.load fsBad "vocab.tsv" = none :=
  C6_malformed_line_fails fsBad "vocab.tsv" "ab\ncd\t3\n" "ab" rfl
    (by decide) (Or.inl (by decide))

/-- C10: no execution path of `Vocab::new` or `Vocab::load` that returns
normally (does not panic) produces the `Err` variant of the declared
`Result`: every returned value is `Ok`. -/
theorem C10_result_never_err :
    ∀ (fs : FS) (fpath : String),
      (∀ r, Vocab.new fs fpath = some r → ∃ v, r = Except.ok v)
      ∧ (∀ r, Vocab.load fs fpath = some r → ∃ v, r = Except.ok v) := by
  intro fs fpath
  constructor
  · intro r h
    unfold Vocab.new Vocab.read_file at h
    split at h
    · cases h
    · simp only [Option.some.injEq] at h
      exact ⟨_, h.symm⟩
  · intro r h
    unfold Vocab.load Vocab.read_file at h
    split at h
    · cases h
    · split at h
      · cases h
      · simp only [Option.some.injEq] at h
        exact ⟨_, h.symm⟩

/-- C10 witness: concrete successful `new` and `load` runs return `Ok`. -/
theorem C10_result_never_err_witness :
    (∃ v, (Except.ok (Vocab.fromText "a b") : Except IOError Vocab) = Except.ok v)
    ∧ (∃ v, (Except.ok (⟨[("x", 5)]⟩ : Vocab) : Except IOError Vocab) = Except.ok v) :=
  ⟨(C10_result_never_err fsOne "corpus.txt").1 _ rfl,
   (C10_result_never_err fsDup "vocab.tsv").2 _ rfl⟩

/-- C5 evaluation: on a missing source path, `Vocab::new` and `Vocab::load`
panic inside `read_file` (modelled as `none`); no `Err` value is returned
to the caller, contrary to the claim. -/
theorem C5_missing_source_panics :
    Vocab.new fsEmpty "corpus.txt" = none ∧ Vocab.load fsEmpty "vocab.tsv" = none :=
  ⟨rfl, rfl⟩

/-! ### Lemmas about splitting around kept runs and separators -/

/-- Splitting past a prefix of kept (non-separator) characters extends the
first segment. -/
theorem splitChHT_keep :
    ∀ (p : Char → Bool) (w rest : List Char),
      (∀ ch ∈ w, p ch = false) →
      splitChHT p (w ++ rest) = (w ++ (splitChHT p rest).1, (splitChHT p rest).2) := by
  intro p w
  induction w with
  | nil => intro rest h; simp
  | cons c w ih =>
    intro rest h
    have hc : p c = false := h c (List.mem_cons_self c w)
    have ih2 := ih rest (fun d hd => h d (List.mem_cons_of_mem c hd))
    simp [splitChHT, hc, ih2]

/-- A separator character closes the current segment. -/
theorem splitChHT_sep :
    ∀ (p : Char → Bool) (c : Char) (rest : List Char),
      p c = true →
      splitChHT p (c :: rest) = ([], (splitChHT p rest).1 :: (splitChHT p rest).2) := by
  intro p c rest h
  simp [splitChHT, h]

/-- Splitting a separator-joined list of separator-free words recovers the
words. -/
theorem splitCh_joinSep :
    ∀ (c : Char) (ws : List (List Char)),
      isSep c = true →
      (∀ w ∈ ws, ∀ ch ∈ w, isSep ch = false) →
      ws ≠ [] →
      splitCh isSep (joinSep c ws) = ws := by
  intro c ws hc
  induction ws with
  | nil => intro _ hne; exact absurd rfl hne
  | cons w ws ih =>
    intro h _
    cases ws with
    | nil =>
      have h1 := splitChHT_keep isSep w [] (h w (List.mem_cons_self w []))
      simp only [splitChHT, List.append_nil] at h1
      show splitCh isSep w = [w]
      unfold splitCh
      rw [h1]
    | cons w2 ws2 =>
      have hkeep := splitChHT_keep isSep w (c :: joinSep c (w2 :: ws2))
        (h w (List.mem_cons_self w (w2 :: ws2)))
      have hsep := splitChHT_sep isSep c (joinSep c (w2 :: ws2)) hc
      have ih2 := ih (fun u hu => h u (List.mem_cons_of_mem w hu)) (by simp)
      show splitCh isSep (w ++ c :: joinSep c (w2 :: ws2)) = w :: w2 :: ws2
      unfold splitCh at ih2 ⊢
      rw [hkeep, hsep]
      simp only [List.append_nil]
      rw [List.cons.injEq]
      exact ⟨rfl, ih2⟩

/-! ### Claim theorem (separator completeness) -/

/-- C9: for every list of non-empty separator-free words and every character
that is neither alphanumeric nor an apostrophe, tokenizing the string
obtained by joining the words with that character yields exactly those
words, each lowercased. -/
theorem C9_separator_completeness :
    ∀ (c : Char) (ws : List (List Char)),
      isSep c = true →
      (∀ w ∈ ws, w ≠ [] ∧ ∀ ch ∈ w, isSep ch = false) →
      tokenize (String.mk (joinSep c ws)) = ws.map (fun w => String.mk (w.map Char.toLower)) := by
  intro c ws hc h
  by_cases hws : ws = []
  · subst hws
    rfl
  · show (tokenizeL (joinSep c ws)).map String.mk = _
    unfold tokenizeL
    rw [splitCh_joinSep c ws hc (fun u hu => (h u hu).2) hws]
    rw [List.filter_eq_self.mpr ?_]
    · simp
    · intro a ha
      cases hA : a with
      | nil => exact absurd hA (h a ha).1
      | cons x xs => rfl

/-- C9 witness: joining `["aB", "c"]` with a comma tokenizes back to the
lowercased words. -/
theorem C9_separator_completeness_witness :
    tokenize (String.mk (joinSep ',' [['a', 'B'], ['c']]))
      = [['a', 'B'], ['c']].map (fun w => String.mk (w.map Char.toLower)) :=
  C9_separator_completeness ',' [['a', 'B'], ['c']] (by decide) (by decide)

/-! ### Lemmas about characters and decimal rendering -/

/-- `Char.ofNat` keeps small scalar values. -/
theorem toNat_charOfNat (n : Nat) (h : n < 55296) : (Char.ofNat n).toNat = n := by
  rw [Char.ofNat, dif_pos (Or.inl h)]
  rfl

/-- The digit character of a digit value is a decimal digit. -/
theorem digitChar_isDigit (n : Nat) (h : n < 10) : (digitChar n).isDigit = true := by
  interval_cases n <;> decide

/-- The code of a digit character. -/
theorem digitChar_toNat (n : Nat) (h : n < 10) : (digitChar n).toNat = 48 + n :=
  toNat_charOfNat (48 + n) (by omega)

/-- A decimal digit differs from any non-digit character. -/
theorem isDigit_ne (c d : Char) (h : c.isDigit = true) (hd : d.isDigit = false) : c ≠ d := by
  intro he
  rw [he, hd] at h
  cases h

/-- A digit character determines its digit value. -/
theorem digitChar_inj_zero (n : Nat) (h : n < 10) (he : digitChar n = Char.ofNat 48) : n = 0 := by
  have h1 := congrArg Char.toNat he
  rw [digitChar_toNat n h] at h1
  have h2 : (Char.ofNat 48).toNat = 48 := by decide
  omega

/-- The decimal rendering with enough fuel is a non-empty digit string with
value `n` and no leading zero. -/
theorem natToDecFuel_spec :
    ∀ (fuel n : Nat), n < fuel →
      natToDecFuel fuel n ≠ []
      ∧ (∀ c ∈ natToDecFuel fuel n, c.isDigit = true)
      ∧ decVal (natToDecFuel fuel n) = n
      ∧ (n ≠ 0 → (natToDecFuel fuel n).head? ≠ some (Char.ofNat 48)) := by
  intro fuel
  induction fuel with
  | zero => intro n h; omega
  | succ fuel ih =>
    intro n h
    by_cases h10 : n < 10
    · simp only [natToDecFuel, if_pos h10]
      refine ⟨by simp, ?_, ?_, ?_⟩
      · intro c hc
        rcases List.mem_singleton.mp hc with rfl
        exact digitChar_isDigit n h10
      · show 0 * 10 + ((digitChar n).toNat - 48) = n
        rw [digitChar_toNat n h10]
        omega
      · intro hn0
        simp only [List.head?, ne_eq, Option.some.injEq]
        exact fun he => hn0 (digitChar_inj_zero n h10 he)
    · have hrec : n / 10 < fuel := by omega
      obtain ⟨hne, hdig, hval, hlead⟩ := ih (n / 10) hrec
      have hm10 : n % 10 < 10 := Nat.mod_lt n (by omega)
      simp only [natToDecFuel, if_neg h10]
      refine ⟨by simp, ?_, ?_, ?_⟩
      · intro c hc
        rcases List.mem_append.mp hc with hc | hc
        · exact hdig c hc
        · rcases List.mem_singleton.mp hc with rfl
          exact digitChar_isDigit _ hm10
      · unfold decVal at hval ⊢
        rw [List.foldl_append]
        simp only [List.foldl_cons, List.foldl_nil]
        rw [hval, digitChar_toNat _ hm10]
        omega
      · intro _
        cases hpre : natToDecFuel fuel (n / 10) with
        | nil => exact absurd hpre hne
        | cons a as =>
          rw [hpre] at hlead
          have ha : a ≠ Char.ofNat 48 := by
            intro he
            exact hlead (by omega) (by rw [List.head?, he])
          simp only [List.cons_append, List.head?, ne_eq, Option.some.injEq]
          exact ha

/-- The decimal rendering of a natural number: non-empty digits, value `n`,
no leading zero. -/
theorem natToDec_spec (n : Nat) :
    natToDec n ≠ []
    ∧ (∀ c ∈ natToDec n, c.isDigit = true)
    ∧ decVal (natToDec n) = n
    ∧ (n ≠ 0 → (natToDec n).head? ≠ some (Char.ofNat 48)) :=
  natToDecFuel_spec (n + 1) n (Nat.lt_succ_self n)

/-- Parsing the decimal rendering of a natural number recovers it. -/
theorem parseDigits_natToDec (n : Nat) : parseDigits (natToDec n) = some n := by
  obtain ⟨hne, hdig, hval, -⟩ := natToDec_spec n
  unfold parseDigits
  rw [if_pos, hval]
  rw [Bool.and_eq_true, List.all_eq_true]
  constructor
  · cases hl : natToDec n with
    | nil => exact absurd hl hne
    | cons a as => rfl
  · exact hdig

/-- Parsing the decimal rendering of an in-range integer recovers it. -/
theorem parseI32L_intToDec (v : Int) (h1 : -(2 ^ 31) ≤ v) (h2 : v ≤ 2 ^ 31 - 1) :
    parseI32L (intToDec v) = some v := by
  by_cases hv : v < 0
  · simp only [intToDec, if_pos hv, parseI32L]
    rw [if_neg (by decide)]
    rw [if_pos (by decide), parseDigits_natToDec]
    simp only [Option.some_bind]
    rw [if_pos (by omega)]
    simp only [Option.some.injEq]
    omega
  · obtain ⟨hne, hdig, -, -⟩ := natToDec_spec v.toNat
    cases hrep : natToDec v.toNat with
    | nil => exact absurd hrep hne
    | cons c cs =>
      have hc : c.isDigit = true := hdig c (by rw [hrep]; exact List.mem_cons_self c cs)
      have h43 : ¬ c = Char.ofNat 43 := isDigit_ne c _ hc (by decide)
      have h45 : ¬ c = Char.ofNat 45 := isDigit_ne c _ hc (by decide)
      have hp : parseDigits (c :: cs) = some v.toNat := by
        rw [← hrep]
        exact parseDigits_natToDec v.toNat
      simp only [intToDec, if_neg hv, hrep, parseI32L]
      rw [if_neg h43, if_neg h45, hp]
      simp only [Option.some_bind]
      rw [if_pos (by omega)]
      simp only [Option.some.injEq]
      omega

/-! ### Lemmas about serialization and line splitting -/

/-- String concatenation concatenates the character lists. -/
theorem string_data_append (s t : String) : (s ++ t).data = s.data ++ t.data := by
  cases s
  cases t
  rfl

/-- A persisted entry is its line body followed by a newline. -/
theorem entryChars_eq (p : String × Int) :
    entryChars p = lineBody p ++ [Char.ofNat 10] := by
  unfold entryChars lineBody
  simp

/-- The serialization of `Vocab::write` is the concatenation of the entry
lines. -/
theorem writeContents_data (m : List (String × Int)) :
    (Vocab.writeContents ⟨m⟩).data = (m.map entryChars).flatten := by
  have htab : ("\t" : String).data = [Char.ofNat 9] := by decide
  have hnl : ("\n" : String).data = [Char.ofNat 10] := by decide
  have gen : ∀ (mm : List (String × Int)) (s : String),
      (mm.foldl (fun acc e => acc ++ e.1 ++ "\t" ++ intToStr e.2 ++ "\n") s).data
        = s.data ++ (mm.map entryChars).flatten := by
    intro mm
    induction mm with
    | nil => intro s; simp
    | cons e mm ih =>
      intro s
      simp only [List.foldl_cons, List.map_cons, List.flatten]
      rw [ih]
      simp [string_data_append, htab, hnl, entryChars, intToStr, List.append_assoc]
  show ((m.foldl _ "").data : List Char) = _
  rw [gen m ""]
  have h0 : ("" : String).data = [] := rfl
  rw [h0, List.nil_append]

/-- `stripCR` is the identity when the last character is not a carriage
return. -/
theorem stripCR_of_reverse (l : List Char)
    (h : ∀ hd tl, l.reverse = hd :: tl → hd ≠ Char.ofNat 13) : stripCR l = l := by
  unfold stripCR
  cases hr : l.reverse with
  | nil => rfl
  | cons c r =>
    show (if c = Char.ofNat 13 then r.reverse else l) = l
    rw [if_neg (h c r hr)]

/-- The `lines` loop takes one newline-free body off the front. -/
theorem linesAux_body :
    ∀ (body rest acc : List Char),
      (∀ c ∈ body, c ≠ Char.ofNat 10) →
      linesAux (body ++ Char.ofNat 10 :: rest) acc
        = stripCR (acc.reverse ++ body) :: linesAux rest [] := by
  intro body
  induction body with
  | nil =>
    intro rest acc h
    show linesAux (Char.ofNat 10 :: rest) acc = _
    simp [linesAux]
  | cons c body ih =>
    intro rest acc h
    have hc : c ≠ Char.ofNat 10 := h c (List.mem_cons_self c body)
    show linesAux (c :: (body ++ Char.ofNat 10 :: rest)) acc = _
    simp only [linesAux, if_neg hc]
    rw [ih rest (c :: acc) (fun d hd => h d (List.mem_cons_of_mem c hd))]
    simp [List.append_assoc]

/-- `str::lines` of a concatenation of newline-terminated, newline-free,
carriage-return-clean bodies recovers the bodies. -/
theorem rustLinesL_join :
    ∀ (bodies : List (List Char)),
      (∀ b ∈ bodies, (∀ c ∈ b, c ≠ Char.ofNat 10) ∧ stripCR b = b) →
      rustLinesL ((bodies.map (fun b => b ++ [Char.ofNat 10])).flatten) = bodies := by
  intro bodies
  induction bodies with
  | nil => intro _; rfl
  | cons b bs ih =>
    intro h
    obtain ⟨hnl, hcr⟩ := h b (List.mem_cons_self b bs)
    show rustLinesL ((b ++ [Char.ofNat 10]) ++ (bs.map (fun b => b ++ [Char.ofNat 10])).flatten)
        = b :: bs
    unfold rustLinesL
    rw [show (b ++ [Char.ofNat 10]) ++ (bs.map (fun b => b ++ [Char.ofNat 10])).flatten
        = b ++ Char.ofNat 10 :: (bs.map (fun b => b ++ [Char.ofNat 10])).flatten from by simp]
    rw [linesAux_body b _ [] hnl]
    simp only [List.reverse_nil, List.nil_append]
    rw [hcr]
    rw [show linesAux ((bs.map (fun b => b ++ [Char.ofNat 10])).flatten) []
        = rustLinesL ((bs.map (fun b => b ++ [Char.ofNat 10])).flatten) from rfl]
    rw [ih (fun u hu => h u (List.mem_cons_of_mem b hu))]

/-! ### Lemmas about persisted lines -/

/-- Every character of a rendered integer is a digit or the minus sign. -/
theorem mem_intToDec (v : Int) (c : Char) (hc : c ∈ intToDec v) :
    c.isDigit = true ∨ c = Char.ofNat 45 := by
  unfold intToDec at hc
  by_cases hv : v < 0
  · rw [if_pos hv] at hc
    rcases List.mem_cons.mp hc with rfl | hc
    · exact Or.inr rfl
    · exact Or.inl ((natToDec_spec v.natAbs).2.1 c hc)
  · rw [if_neg hv] at hc
    exact Or.inl ((natToDec_spec v.toNat).2.1 c hc)

/-- The last character of a rendered integer is a digit. -/
theorem intToDec_reverse_head (v : Int) :
    ∃ hd tl, (intToDec v).reverse = hd :: tl ∧ hd.isDigit = true := by
  by_cases hv : v < 0
  · obtain ⟨hne, hdig, -, -⟩ := natToDec_spec v.natAbs
    cases hr : (natToDec v.natAbs).reverse with
    | nil =>
      exfalso
      exact hne (by simpa using congrArg List.reverse hr)
    | cons d tl =>
      refine ⟨d, tl ++ [Char.ofNat 45], ?_, ?_⟩
      · simp only [intToDec, if_pos hv, List.reverse_cons, hr, List.cons_append]
      · refine hdig d ?_
        rw [← List.mem_reverse, hr]
        exact List.mem_cons_self d tl
  · obtain ⟨hne, hdig, -, -⟩ := natToDec_spec v.toNat
    cases hr : (natToDec v.toNat).reverse with
    | nil =>
      exfalso
      exact hne (by simpa using congrArg List.reverse hr)
    | cons d tl =>
      refine ⟨d, tl, ?_, ?_⟩
      · simp only [intToDec, if_neg hv, hr]
      · refine hdig d ?_
        rw [← List.mem_reverse, hr]
        exact List.mem_cons_self d tl

/-- A persisted line body never ends with a carriage return. -/
theorem stripCR_lineBody (p : String × Int) : stripCR (lineBody p) = lineBody p := by
  apply stripCR_of_reverse
  intro hd tl hr
  obtain ⟨h0, t0, hdr, hdig⟩ := intToDec_reverse_head p.2
  unfold lineBody at hr
  rw [List.reverse_append, List.reverse_cons, hdr] at hr
  simp only [List.cons_append] at hr
  rw [List.cons.injEq] at hr
  rw [← hr.1]
  exact isDigit_ne h0 _ hdig (by decide)

/-- A persisted line body is newline-free when the token is. -/
theorem lineBody_no_nl (p : String × Int)
    (hk : ∀ c ∈ p.1.data, c ≠ Char.ofNat 10) :
    ∀ c ∈ lineBody p, c ≠ Char.ofNat 10 := by
  intro c hc
  unfold lineBody at hc
  rcases List.mem_append.mp hc with hc | hc
  · exact hk c hc
  · rcases List.mem_cons.mp hc with rfl | hc
    · decide
    · rcases mem_intToDec p.2 c hc with hd | rfl
      · exact isDigit_ne c _ hd (by decide)
      · decide

/-- Splitting at the first tab around an explicit tab. -/
theorem splitFirstTab_append (pre post : List Char)
    (h : ∀ c ∈ pre, c ≠ Char.ofNat 9) :
    splitFirstTab (pre ++ Char.ofNat 9 :: post) = some (pre, post) := by
  induction pre with
  | nil => simp [splitFirstTab]
  | cons c pre ih =>
    have hc := h c (List.mem_cons_self c pre)
    show splitFirstTab (c :: (pre ++ Char.ofNat 9 :: post)) = some (c :: pre, post)
    simp only [splitFirstTab, if_neg hc]
    rw [ih (fun d hd => h d (List.mem_cons_of_mem c hd))]
    rfl

/-- Parsing a persisted line recovers the entry, for tab-free tokens and
in-range identifiers. -/
theorem parseLineL_lineBody (p : String × Int)
    (hk : ∀ c ∈ p.1.data, c ≠ Char.ofNat 9)
    (h1 : -(2 ^ 31) ≤ p.2) (h2 : p.2 ≤ 2 ^ 31 - 1) :
    parseLineL (lineBody p) = some p := by
  unfold parseLineL lineBody
  rw [splitFirstTab_append _ _ hk]
  show (match parseI32 (String.mk (intToDec p.2)) with
        | none => none
        | some v => some (String.mk p.1.data, v)) = some p
  rw [show parseI32 (String.mk (intToDec p.2)) = parseI32L (intToDec p.2) from rfl,
    parseI32L_intToDec p.2 h1 h2]

/-- The load loop over lines that all parse is the fold of the insertions. -/
theorem loadLoop_all_parse :
    ∀ (L m0 : List (String × Int)),
      (∀ p ∈ L, parseLineL (lineBody p) = some p) →
      loadLoop (L.map (fun p => String.mk (lineBody p))) m0
        = some (L.foldl (fun m p => insertA m p.1 p.2) m0) := by
  intro L
  induction L with
  | nil => intro m0 _; rfl
  | cons p L ih =>
    intro m0 h
    have hp : parseLine (String.mk (lineBody p)) = some p := h p (List.mem_cons_self p L)
    simp only [List.map_cons, List.foldl_cons, loadLoop, hp]
    exact ih _ (fun q hq => h q (List.mem_cons_of_mem p hq))

/-- Key containment distributes over append. -/
theorem containsA_append (m1 m2 : List (String × Int)) (k : String) :
    containsA (m1 ++ m2) k = (containsA m1 k || containsA m2 k) := by
  simp [containsA, List.any_append]

/-- Inserting a list of entries with fresh, pairwise distinct keys appends
them in order. -/
theorem foldl_insertA_fresh :
    ∀ (L m0 : List (String × Int)),
      (L.map Prod.fst).Nodup →
      (∀ p ∈ L, containsA m0 p.1 = false) →
      L.foldl (fun m p => insertA m p.1 p.2) m0 = m0 ++ L := by
  intro L
  induction L with
  | nil => intro m0 _ _; simp
  | cons p L ih =>
    intro m0 hnd hdis
    rw [List.map_cons] at hnd
    have hnd2 := List.nodup_cons.mp hnd
    have hp : containsA m0 p.1 = false := hdis p (List.mem_cons_self p L)
    have hins : insertA m0 p.1 p.2 = m0 ++ [p] := by
      unfold insertA
      rw [hp, if_neg Bool.false_ne_true]
    simp only [List.foldl_cons, hins]
    rw [ih (m0 ++ [p]) hnd2.2 ?_]
    · simp
    · intro q hq
      rw [containsA_append, hdis q (List.mem_cons_of_mem p hq), Bool.false_or]
      have hq1 : q.1 ≠ p.1 := by
        have hmem : q.1 ∈ L.map Prod.fst := List.mem_map_of_mem Prod.fst hq
        exact fun c => hnd2.1 (c ▸ hmem)
      have hbeq : (p.1 == q.1) = false := beq_eq_false_iff_ne.mpr (fun c => hq1 c.symm)
      simp [containsA, hbeq]

/-- Membership in the integer enumeration of a list. -/
theorem mem_enumFromInt :
    ∀ (t : Int) (l : List String) (p : String × Int),
      p ∈ enumFromInt t l → p.1 ∈ l ∧ t ≤ p.2 ∧ p.2 < t + l.length := by
  intro t l
  induction l generalizing t with
  | nil =>
    intro p hp
    simp [enumFromInt] at hp
  | cons k ks ih =>
    intro p hp
    simp only [enumFromInt, List.mem_cons] at hp
    rcases hp with rfl | hp
    · refine ⟨List.mem_cons_self k ks, by omega, ?_⟩
      simp only [List.length_cons]
      omega
    · obtain ⟨h1, h2, h3⟩ := ih (t + 1) p hp
      refine ⟨List.mem_cons_of_mem k h1, by omega, ?_⟩
      simp only [List.length_cons]
      omega

/-! ### Lemmas about the characters of tokens -/

/-- All characters produced by the splitter are non-separators. -/
theorem splitChHT_chars :
    ∀ (p : Char → Bool) (cs : List Char),
      (∀ ch ∈ (splitChHT p cs).1, p ch = false)
      ∧ (∀ seg ∈ (splitChHT p cs).2, ∀ ch ∈ seg, p ch = false) := by
  intro p cs
  induction cs with
  | nil =>
    constructor
    · intro ch hch
      exact absurd hch (List.not_mem_nil ch)
    · intro seg hseg
      exact absurd hseg (List.not_mem_nil seg)
  | cons c cs ih =>
    cases hp : p c with
    | true =>
      have heq := splitChHT_sep p c cs hp
      rw [heq]
      constructor
      · intro ch hch
        exact absurd hch (List.not_mem_nil ch)
      · intro seg hseg
        rcases List.mem_cons.mp hseg with rfl | hseg
        · exact ih.1
        · exact ih.2 seg hseg
    | false =>
      have heq : splitChHT p (c :: cs) = (c :: (splitChHT p cs).1, (splitChHT p cs).2) := by
        simp [splitChHT, hp]
      rw [heq]
      constructor
      · intro ch hch
        rcases List.mem_cons.mp hch with rfl | hch
        · exact hp
        · exact ih.1 ch hch
      · exact ih.2

/-- Lowercasing cannot produce a control character such as a tab or a
newline from a different character. -/
theorem toLower_preserves_ne_low (c d : Char) (hd : d.toNat < 97) (hc : c ≠ d) :
    Char.toLower c ≠ d := by
  unfold Char.toLower
  show (if c.toNat ≥ 65 ∧ c.toNat ≤ 90 then Char.ofNat (c.toNat + 32) else c) ≠ d
  by_cases h : c.toNat ≥ 65 ∧ c.toNat ≤ 90
  · rw [if_pos h]
    intro he
    have h2 : (Char.ofNat (c.toNat + 32)).toNat = c.toNat + 32 :=
      toNat_charOfNat _ (by omega)
    rw [he] at h2
    omega
  · rw [if_neg h]
    exact hc

/-- A non-separator character is neither a tab nor a newline. -/
theorem notSep_tab_nl (c : Char) (h : isSep c = false) :
    c ≠ Char.ofNat 9 ∧ c ≠ Char.ofNat 10 := by
  constructor <;> intro he <;> rw [he] at h <;> exact absurd h (by decide)

/-- Every token produced by the tokenizer is non-empty and free of tabs and
newlines. -/
theorem tokenize_chars :
    ∀ (text t : String), t ∈ tokenize text →
      t ≠ "" ∧ ∀ ch ∈ t.data, ch ≠ Char.ofNat 9 ∧ ch ≠ Char.ofNat 10 := by
  intro text t ht
  unfold tokenize tokenizeL at ht
  rcases List.mem_map.mp ht with ⟨w, hw, rfl⟩
  rcases List.mem_map.mp hw with ⟨seg, hseg, rfl⟩
  have hmem := List.mem_filter.mp hseg
  have hchars : ∀ ch ∈ seg, isSep ch = false := by
    have hsc := splitChHT_chars isSep text.data
    have hsp : seg ∈ splitCh isSep text.data := hmem.1
    unfold splitCh at hsp
    rcases List.mem_cons.mp hsp with rfl | hs
    · exact hsc.1
    · exact hsc.2 seg hs
  have hne : seg ≠ [] := by
    intro hnil
    subst hnil
    simpa using hmem.2
  constructor
  · intro he
    have hdata : seg.map Char.toLower = [] := congrArg String.data he
    exact hne (List.map_eq_nil_iff.mp hdata)
  · intro ch hch
    rcases List.mem_map.mp hch with ⟨c0, hc0, rfl⟩
    obtain ⟨h9, h10⟩ := notSep_tab_nl c0 (hchars c0 hc0)
    constructor
    · exact toLower_preserves_ne_low c0 _ (by decide) h9
    · exact toLower_preserves_ne_low c0 _ (by decide) h10

/-! ### Claim theorems (persistence) -/

/-- C8: `Vocab::write` serializes exactly one line per entry — the token, a
single tab, the identifier in decimal (no leading zeros: `0` renders as the
single digit `0`, a nonzero identifier never starts with `0`, a negative
one starts with the minus sign followed by a nonzero digit), then a
newline — and the set of lines is determined by the entries even though
their order is unspecified (permuting the entries permutes the lines). -/
theorem C8_write_format :
    ∀ (m : List (String × Int)),
      (∀ p ∈ m, ∀ c ∈ p.1.data, c ≠ Char.ofNat 10) →
      (Vocab.writeContents ⟨m⟩).data
          = (m.map (fun p => lineBody p ++ [Char.ofNat 10])).flatten
      ∧ rustLinesL (Vocab.writeContents ⟨m⟩).data = m.map lineBody
      ∧ (∀ p ∈ m, lineBody p = p.1.data ++ Char.ofNat 9 :: intToDec p.2)
      ∧ intToDec 0 = [Char.ofNat 48]
      ∧ (∀ p ∈ m, p.2 ≠ 0 → (intToDec p.2).head? ≠ some (Char.ofNat 48))
      ∧ (∀ p ∈ m, p.2 < 0 → ∃ ds, intToDec p.2 = Char.ofNat 45 :: ds
          ∧ ds.head? ≠ some (Char.ofNat 48))
      ∧ (∀ m2, m.Perm m2 →
          (rustLinesL (Vocab.writeContents ⟨m2⟩).data).Perm
            (rustLinesL (Vocab.writeContents ⟨m⟩).data)) := by
  intro m hk
  have hbodies : ∀ (mm : List (String × Int)),
      (∀ p ∈ mm, ∀ c ∈ p.1.data, c ≠ Char.ofNat 10) →
      rustLinesL (Vocab.writeContents ⟨mm⟩).data = mm.map lineBody := by
    intro mm hkk
    rw [writeContents_data]
    have hmap : mm.map entryChars
        = (mm.map lineBody).map (fun b => b ++ [Char.ofNat 10]) := by
      rw [List.map_map]
      exact List.map_congr_left (fun p _ => entryChars_eq p)
    rw [hmap, rustLinesL_join]
    intro b hb
    rcases List.mem_map.mp hb with ⟨p, hp, rfl⟩
    exact ⟨lineBody_no_nl p (hkk p hp), stripCR_lineBody p⟩
  have h2 := hbodies m hk
  refine ⟨?_, h2, fun p _ => rfl, by decide, ?_, ?_, ?_⟩
  · rw [writeContents_data]
    congr 1
    exact List.map_congr_left (fun p _ => entryChars_eq p)
  · intro p _ hp0
    unfold intToDec
    by_cases hv : p.2 < 0
    · rw [if_pos hv]
      intro he
      simp only [List.head?, Option.some.injEq] at he
      exact absurd he (by decide)
    · rw [if_neg hv]
      exact (natToDec_spec p.2.toNat).2.2.2 (by omega)
  · intro p _ hpneg
    unfold intToDec
    rw [if_pos hpneg]
    refine ⟨natToDec p.2.natAbs, rfl, ?_⟩
    exact (natToDec_spec p.2.natAbs).2.2.2 (by omega)
  · intro m2 hperm
    have hk2 : ∀ p ∈ m2, ∀ c ∈ p.1.data, c ≠ Char.ofNat 10 :=
      fun p hp c hc => hk p (hperm.mem_iff.mpr hp) c hc
    rw [hbodies m2 hk2, h2]
    exact (hperm.map lineBody).symm

/-- C8 witness: a two-entry vocabulary and its swap produce the same pair of
lines in swapped order; the formats hold. -/
theorem C8_write_format_witness :
    (Vocab.writeContents ⟨[("a", 10), ("b", 0)]⟩).data
        = ([(("a" : String), (10 : Int)), ("b", 0)].map
            (fun p => lineBody p ++ [Char.ofNat 10])).flatten
    ∧ rustLinesL (Vocab.writeContents ⟨[("a", 10), ("b", 0)]⟩).data
        = [(("a" : String), (10 : Int)), ("b", 0)].map lineBody
    ∧ (∀ p ∈ [(("a" : String), (10 : Int)), ("b", 0)],
        lineBody p = p.1.data ++ Char.ofNat 9 :: intToDec p.2)
    ∧ intToDec 0 = [Char.ofNat 48]
    ∧ (∀ p ∈ [(("a" : String), (10 : Int)), ("b", 0)],
        p.2 ≠ 0 → (intToDec p.2).head? ≠ some (Char.ofNat 48))
    ∧ (∀ p ∈ [(("a" : String), (10 : Int)), ("b", 0)],
        p.2 < 0 → ∃ ds, intToDec p.2 = Char.ofNat 45 :: ds
          ∧ ds.head? ≠ some (Char.ofNat 48))
    ∧ (∀ m2, [(("a" : String), (10 : Int)), ("b", 0)].Perm m2 →
        (rustLinesL (Vocab.writeContents ⟨m2⟩).data).Perm
          (rustLinesL (Vocab.writeContents ⟨[("a", 10), ("b", 0)]⟩).data)) :=
  C8_write_format [("a", 10), ("b", 0)] (by decide)

/-- C1: a vocabulary built fresh from text, written to a destination (in any
iteration order `L` of its entries) and loaded back, yields exactly the
entries that were written, hence the same set of (token, id) pairs as the
built vocabulary, independent of line order.  The identifier-count bound
keeps every identifier inside the `i32` range, as in every run of the
program. -/
theorem C1_round_trip :
    ∀ (text : String) (L : List (String × Int)) (fs : FS) (dest : String),
      L.Perm (Vocab.fromText text).map →
      (Vocab.fromText text).map.length ≤ 2 ^ 31 →
      Vocab.load (Vocab.write ⟨L⟩ fs dest) dest = some (Except.ok ⟨L⟩)
      ∧ (∀ p, p ∈ L ↔ p ∈ (Vocab.fromText text).map) := by
  intro text L fs dest hperm hlen
  have henum : (Vocab.fromText text).map = enumFromInt 0 (firstKeys (tokenize text) []) := by
    unfold Vocab.fromText
    rw [buildMap_eq]
    simp
  have hmemiff : ∀ p, p ∈ L ↔ p ∈ (Vocab.fromText text).map := fun p => hperm.mem_iff
  refine ⟨?_, hmemiff⟩
  have hfact : ∀ p ∈ L, (∀ c ∈ p.1.data, c ≠ Char.ofNat 9 ∧ c ≠ Char.ofNat 10)
      ∧ -(2 ^ 31) ≤ p.2 ∧ p.2 ≤ 2 ^ 31 - 1 := by
    intro p hpL
    have hpV : p ∈ (Vocab.fromText text).map := (hmemiff p).mp hpL
    rw [henum] at hpV
    obtain ⟨hk, hlo, hhi⟩ := mem_enumFromInt 0 _ p hpV
    have htok : p.1 ∈ tokenize text := ((mem_firstKeys _ _ _).mp hk).1
    have hch := (tokenize_chars text p.1 htok).2
    have hlenk : ((firstKeys (tokenize text) []).length : Int)
        = ((Vocab.fromText text).map.length : Int) := by
      rw [henum, enumFromInt_length]
    have hN : (2 : Nat) ^ 31 = 2147483648 := by norm_num
    have hZ : (2 : Int) ^ 31 = 2147483648 := by norm_num
    rw [hN] at hlen
    refine ⟨hch, by omega, ?_⟩
    rw [hZ]
    omega
  have hnodupV : ((Vocab.fromText text).map.map Prod.fst).Nodup := by
    rw [henum, enumFromInt_fst]
    exact firstKeys_nodup _ _
  have hnodupL : (L.map Prod.fst).Nodup := (hperm.map Prod.fst).nodup_iff.mpr hnodupV
  have hlines : rustLinesL (Vocab.writeContents ⟨L⟩).data = L.map lineBody := by
    rw [writeContents_data]
    have hmap : L.map entryChars = (L.map lineBody).map (fun b => b ++ [Char.ofNat 10]) := by
      rw [List.map_map]
      exact List.map_congr_left (fun p _ => entryChars_eq p)
    rw [hmap, rustLinesL_join]
    intro b hb
    rcases List.mem_map.mp hb with ⟨p, hp, rfl⟩
    exact ⟨lineBody_no_nl p (fun c hc => ((hfact p hp).1 c hc).2), stripCR_lineBody p⟩
  have hload : loadLoop (rustLines (Vocab.writeContents ⟨L⟩)) [] = some L := by
    unfold rustLines
    rw [hlines]
    have hmm : (L.map lineBody).map String.mk = L.map (fun p => String.mk (lineBody p)) := by
      rw [List.map_map]
      rfl
    rw [hmm, loadLoop_all_parse L []
      (fun p hp => parseLineL_lineBody p (fun c hc => ((hfact p hp).1 c hc).1)
        (hfact p hp).2.1 (hfact p hp).2.2)]
    rw [foldl_insertA_fresh L [] hnodupL (fun p _ => rfl)]
    rw [List.nil_append]
  have hread : Vocab.read_file (Vocab.write ⟨L⟩ fs dest) dest
      = some (Vocab.writeContents ⟨L⟩) := by
    unfold Vocab.read_file Vocab.write
    simp
  unfold Vocab.load
  rw [hread]
  show (match loadLoop (rustLines (Vocab.writeContents ⟨L⟩)) [] with
        | none => none
        | some m => some (Except.ok (Vocab.mk m))) = some (Except.ok (Vocab.mk L))
  rw [hload]

/-- C1 witness: the vocabulary of `"b a b"`, written in swapped entry order
and loaded back, yields the same pair set. -/
theorem C1_round_trip_witness :
    Vocab.load (Vocab.write (⟨[("a", 1), ("b", 0)]⟩ : Vocab) fsEmpty "out.tsv") "out.tsv"
      = some (Except.ok (⟨[("a", 1), ("b", 0)]⟩ : Vocab))
    ∧ (∀ p, p ∈ [(("a" : String), (1 : Int)), ("b", 0)]
        ↔ p ∈ (Vocab.fromText "b a b").map) :=
  C1_round_trip "b a b" [("a", 1), ("b", 0)] fsEmpty "out.tsv" (by decide) (by decide)
